import Mathlib

/-!
# Verification of the nubia-cli command engine helpers

Shallow embedding of the core pure functions of `nubia/internal/helpers.py`
(pattern choice validator, suggestion engine, name normalizer) together with
spec-level models of the super-command argument binder and the dispatcher's
exit-code normalization, whose sources are not part of the repository snapshot.

Python strings are embedded as `List Char`; Python exceptions as `Except`.
-/

/-- Python strings are modelled as lists of characters. -/
abbrev Str := List Char

/-! ## Model of the external regex engine (`re.compile` validity)

`matches_choice_pattern` calls Python's `re.compile` only to test whether a
pattern is syntactically acceptable.  The regex engine is an external
dependency of the repository ("Depends only on a regex engine"), modelled here
as an executable syntax checker for the regex fragment the code and tests
exercise: literals, `.`, anchors, escapes `\c`, character classes `[...]`
(with leading `^` and a literal first `]`), groups `(...)`, alternation `|`,
and the quantifiers `*`, `+`, `?` (including the lazy variants `*?` `+?` `??`).
A pattern is rejected for an unterminated class, an unbalanced parenthesis,
a dangling escape, or a quantifier with nothing to repeat. -/

/-- Scan the body of a character class, consuming input until the closing `]`;
`none` when the class is unterminated. -/
def classScan : Str → Option Str
  | [] => none
  | '\\' :: _ :: rest => classScan rest
  | ']' :: rest => some rest
  | _ :: rest => classScan rest

/-- Enter a character class just after `[`: an optional `^`, then a first `]`
is a literal member, then scan for the closing `]`. -/
def classStart (s : Str) : Option Str :=
  let s1 := match s with
    | '^' :: r => r
    | _ => s
  match s1 with
  | ']' :: r => classScan r
  | _ => classScan s1

/-- Scanner state: what the previous construct allows next.  `start` means no
atom precedes (a quantifier is "nothing to repeat"); `atom` means a quantifier
may follow; `quant` permits only a lazy `?`; `lazyq` permits no quantifier. -/
inductive ReState where
  | start
  | atom
  | quant
  | lazyq

/-- Fuelled scanner over the pattern: tracks open-group depth and the
quantifier state.  The fuel strictly exceeds the input length, so it never
runs out on the initial call. -/
def reScan : Nat → Str → Nat → ReState → Bool
  | 0, _, _, _ => false
  | _ + 1, [], depth, _ => depth == 0
  | fuel + 1, c :: rest, depth, st =>
    if c = '(' then
      reScan fuel rest (depth + 1) .start
    else if c = ')' then
      depth != 0 && reScan fuel rest (depth - 1) .atom
    else if c = '[' then
      match classStart rest with
      | some rest2 => reScan fuel rest2 depth .atom
      | none => false
    else if c = '*' ∨ c = '+' then
      match st with
      | .atom => reScan fuel rest depth .quant
      | _ => false
    else if c = '?' then
      match st with
      | .atom => reScan fuel rest depth .quant
      | .quant => reScan fuel rest depth .lazyq
      | _ => false
    else if c = '|' then
      reScan fuel rest depth .start
    else if c = '\\' then
      match rest with
      | _ :: rest2 => reScan fuel rest2 depth .atom
      | [] => false
    else
      reScan fuel rest depth .atom

/-- Whether `re.compile(pattern)` succeeds, in the model of the engine. -/
def reCompileOk (pattern : Str) : Bool :=
  reScan (pattern.length + 1) pattern 0 .start

/-! ## Pattern choice validator (`matches_choice_pattern`) -/

/-- A choice value: the lists of allowed choices are heterogeneous in Python
(strings or numbers); the validator stringifies every choice. -/
inductive Choice where
  | s (v : Str)
  | i (n : Int)
deriving DecidableEq

/-- `str(choice)`: stringification of a choice value. -/
def choice_str : Choice → Str
  | .s v => v
  | .i n => (toString n).data

/-- `matches_choice_pattern(value, choices)` from `nubia/internal/helpers.py`:
dispatch on a 0-2 character prefix of `value`.  `!~pattern` and `~pattern`
return whether the remainder compiles as a regex; `!literal` and a bare
literal test membership of the (stringified) choices. -/
def matches_choice_pattern (value : Str) (choices : List Choice) : Bool :=
  if value.take 2 = ['!', '~'] then reCompileOk (value.drop 2)
  else if value.take 1 = ['~'] then reCompileOk (value.drop 1)
  else if value.take 1 = ['!'] then decide (value.drop 1 ∈ choices.map choice_str)
  else decide (value ∈ choices.map choice_str)

example : reCompileOk [] = true := by decide
example : reCompileOk "a.*".data = true := by decide
example : reCompileOk "[invalid".data = false := by decide
example : reCompileOk "(".data = false := by decide
example : matches_choice_pattern ['~'] [] = true := by decide
example : matches_choice_pattern "a1".data [Choice.s "a".data, Choice.s "a1".data] = true := by
  decide
example : matches_choice_pattern "!a1".data [Choice.s "a".data, Choice.s "a1".data] = true := by
  decide
example : matches_choice_pattern "!c".data [Choice.s "a".data, Choice.s "a1".data] = false := by
  decide
example : matches_choice_pattern "1".data [Choice.i 1, Choice.s "2".data] = true := by decide

/-! ## Name normalizer (`transform_name`) -/

/-- `str.strip()`: remove leading and trailing whitespace. -/
def py_strip (s : Str) : Str :=
  (((s.dropWhile Char.isWhitespace).reverse).dropWhile Char.isWhitespace).reverse

/-- `re.sub(from_char+, to_char, name)`: replace every maximal run of
`from_char` by a single `to_char`. -/
def collapse_runs (ci co : Char) : Str → Str
  | [] => []
  | [x] => if x = ci then [co] else [x]
  | x :: y :: xs =>
    if x = ci then
      if y = ci then collapse_runs ci co (y :: xs)
      else co :: collapse_runs ci co (y :: xs)
    else x :: collapse_runs ci co (y :: xs)

/-- Drop the head of the list when it equals `c`. -/
def strip_one (c : Char) : Str → Str
  | [] => []
  | x :: xs => if x = c then xs else x :: xs

/-- `re.sub(^to_char|to_char$, "", name)`: remove one leading and one trailing
occurrence of the output separator. -/
def strip_edges (c : Char) (s : Str) : Str :=
  (strip_one c ((strip_one c s).reverse)).reverse

/-- `transform_name(name, from_char, to_char)` from
`nubia/internal/helpers.py` (defaults `from_char='_'`, `to_char='-'`):
strip whitespace, collapse separator runs, strip edge separators, and raise
`ValueError('Invalid name ""')` when nothing remains. -/
def transform_name (name : Str) (from_char to_char : Char) : Except Str Str :=
  let name1 := py_strip name
  let name2 := collapse_runs from_char to_char name1
  let name3 := strip_edges to_char name2
  if name3 = [] then .error "Invalid name \"\"".data else .ok name3

example : transform_name "_foo_bar".data '_' '-' = .ok "foo-bar".data := rfl
example : transform_name "__special__".data '_' '-' = .ok "special".data := rfl
example : transform_name "some__very___special".data '_' '-' =
    .ok "some-very-special".data := rfl
example : transform_name "___".data '_' '-' = .error "Invalid name \"\"".data := rfl
example : transform_name "".data '_' '-' = .error "Invalid name \"\"".data := rfl

/-! ## Suggestion engine (`find_approx`) -/

/-- `str.lower()`: lower-case every character (ASCII, as used by the tests). -/
def str_lower (s : Str) : Str := s.map Char.toLower

/-- `s.startswith(p)`. -/
def py_startswith (s p : Str) : Bool := List.isPrefixOf p s

/-- Modelled from the spec: the external string-distance primitive
(`jellyfish.damerau_levenshtein_distance`), written as the fuelled
optimal-string-alignment recurrence counting insertions, deletions,
substitutions and adjacent transpositions (spec glossary).  The fuel strictly
exceeds the total length, so it never runs out on the initial call. -/
def dl_rec : Nat → Str → Str → Nat
  | 0, a, b => a.length + b.length
  | _ + 1, [], b => b.length
  | _ + 1, a, [] => a.length
  | fuel + 1, x :: xs, u :: us =>
    let del := dl_rec fuel xs (u :: us) + 1
    let ins := dl_rec fuel (x :: xs) us + 1
    let sub := dl_rec fuel xs us + (if x = u then 0 else 1)
    let base := min del (min ins sub)
    match xs, us with
    | y :: xs2, v :: us2 =>
      if x = v ∧ y = u then min base (dl_rec fuel xs2 us2 + 1) else base
    | _, _ => base

/-- Damerau-Levenshtein distance between two strings. -/
def damerau_levenshtein_distance (a b : Str) : Nat :=
  dl_rec (a.length + b.length + 1) a b

example : damerau_levenshtein_distance "lookupp".data "lookup".data = 1 := by decide
example : damerau_levenshtein_distance "ab".data "ba".data = 1 := by decide
example : damerau_levenshtein_distance "kitten".data "sitting".data = 3 := by decide

/-- Python's string comparison: lexicographic by code point, a proper prefix
is smaller.  `str_le_b a b` decides `a <= b`. -/
def str_le_b : Str → Str → Bool
  | [], _ => true
  | _ :: _, [] => false
  | a :: as, b :: bs => if a = b then str_le_b as bs else decide (a < b)

/-- The ordering on strings used by Python's `sorted`. -/
def str_le (a b : Str) : Prop := str_le_b a b = true

instance : DecidableRel str_le := fun a b => by
  unfold str_le
  infer_instance

/-- The sort key used for the distance suggestions: distance ascending, then
name ascending. -/
def pair_le (x y : Str × Nat) : Prop :=
  x.2 < y.2 ∨ (x.2 = y.2 ∧ str_le x.1 y.1)

instance : DecidableRel pair_le := fun x y => by
  unfold pair_le
  exact inferInstance

/-- The accumulator of `find_approx`'s loop: the set of prefix matches and
the dict of edit-distance matches. -/
structure ApproxAcc where
  prefix_suggestions : List Str
  levenshtein_suggestions : List (Str × Nat)

/-- `dict.update({k: v})`: overwrite the value at `k`, or append the binding. -/
def dict_update (d : List (Str × Nat)) (k : Str) (v : Nat) : List (Str × Nat) :=
  if d.any (fun p => p.1 = k) then d.map (fun p => if p.1 = k then (k, v) else p)
  else d ++ [(k, v)]

/-- One iteration of the `for another_command in cmd_map` loop of
`find_approx`: a prefix match joins the prefix set; otherwise a name of
length > 1 at distance at most 2 joins the distance dict. -/
def find_approx_step (cmd_input : Str) (acc : ApproxAcc) (another_command : Str) : ApproxAcc :=
  if py_startswith another_command (str_lower cmd_input) then
    { acc with prefix_suggestions :=
        if another_command ∈ acc.prefix_suggestions then acc.prefix_suggestions
        else acc.prefix_suggestions ++ [another_command] }
  else if 1 < another_command.length then
    if damerau_levenshtein_distance (str_lower cmd_input) another_command ≤ 2 then
      { acc with levenshtein_suggestions :=
          (dict_update acc.levenshtein_suggestions another_command
            (damerau_levenshtein_distance (str_lower cmd_input) another_command)) }
    else acc
  else acc

/-- `find_approx(cmd_input, cmd_map)` from `nubia/internal/helpers.py`:
if any prefix suggestion exists return the prefix suggestions sorted
lexicographically, else return the distance suggestions sorted by
(distance, name). -/
def find_approx (cmd_input : Str) (cmd_map : List Str) : List Str :=
  let acc := cmd_map.foldl (find_approx_step cmd_input) ⟨[], []⟩
  if acc.prefix_suggestions = [] then
    (List.insertionSort pair_le acc.levenshtein_suggestions).map Prod.fst
  else
    List.insertionSort str_le acc.prefix_suggestions

example : find_approx "b".data ["a".data, "a1".data, "b1".data, "a2a1".data] =
    ["b1".data] := by decide
example : find_approx "lookupp".data ["lookup".data, "double".data, "triple".data] =
    ["lookup".data] := by decide
example : find_approx "".data ["b1".data, "?".data, "a".data] =
    ["?".data, "a".data, "b1".data] := by decide

/-! ## Super-command shared-argument binding

The command-line parser and binder sources are not part of this repository
snapshot; the model below follows the specification of super-command
resolution and binding. -/

/-- Modelled from the spec: a super-command's binding schema — its constructor
parameters ("shared arguments", each with a default value) and the argument
names of the selected subcommand (`register`/`resolve` and binder sources
absent). -/
structure SuperSpec where
  shared_defaults : List (Str × Str)
  sub_args : List Str

/-- The names of the shared (constructor) arguments. -/
def shared_names (sc : SuperSpec) : List Str := sc.shared_defaults.map Prod.fst

/-- The value bound to `n` by the last keyword token naming `n`, if any. -/
def last_assoc : List (Str × Str) → Str → Option Str
  | [], _ => none
  | (k, v) :: rest, n =>
    match last_assoc rest n with
    | some r => some r
    | none => if k = n then some v else none

/-- Modelled from the spec: the call frame a super-command invocation binds —
the constructor frame of shared arguments and the subcommand's own frame. -/
structure SuperBinding where
  shared_frame : List (Str × Str)
  sub_frame : List (Str × Str)
deriving DecidableEq

/-- Modelled from the spec: binding of a super-command invocation (binder
source absent).  `pre` are the keyword tokens before the subcommand token and
`post` the ones after it; a shared argument is bindable in either position
(later bindings override earlier ones, defaults fill the rest), and the
subcommand's frame takes the post tokens that name its own arguments. -/
def bind_super (sc : SuperSpec) (pre post : List (Str × Str)) : SuperBinding :=
  let shared_kvs := pre ++ post.filter (fun p => p.1 ∈ shared_names sc)
  { shared_frame :=
      sc.shared_defaults.map (fun d => (d.1, (last_assoc shared_kvs d.1).getD d.2)),
    sub_frame :=
      post.filter (fun p => p.1 ∈ sc.sub_args ∧ p.1 ∉ shared_names sc) }

/-- Dispatch through a handler: the handler observes only the bound frames. -/
def run_super (handler : SuperBinding → Int) (sc : SuperSpec) (pre post : List (Str × Str)) :
    Int :=
  handler (bind_super sc pre post)

/-! ## Dispatcher exit-code normalization

The dispatcher source (`run_cli`/`run_interactive`) is not part of this
repository snapshot; the model below follows the specification's execution
contract and the exit codes observed by the repository's test fixtures. -/

/-- What a handler invocation produced: no return value, an explicit integer,
or an uncaught error. -/
inductive HandlerResult where
  | retNone
  | retInt (i : Int)
  | raised
deriving DecidableEq

/-- The outcome of argument binding for an executed command line: a
validation failure, or a bound frame whose handler ran with some result. -/
inductive BindOutcome where
  | failed
  | bound (r : HandlerResult)

/-- Modelled from the spec: the distinguished argument/validation-failure
exit code, observed as 4 in the repository's test fixtures. -/
def validation_error_code : Int := 4

/-- Modelled from the spec: the fatal exit code for an uncaught handler
error; the spec fixes only that it is distinct from the validation code,
1 is a representative choice. -/
def fatal_error_code : Int := 1

/-- Modelled from the spec: normalization of the handler's result — a
`None`-equivalent return means exit code 0, an explicit integer is the exit
code, an uncaught error becomes the fatal code. -/
def normalize_result : HandlerResult → Int
  | .retNone => 0
  | .retInt i => i
  | .raised => fatal_error_code

/-- Modelled from the spec: the dispatcher's exit code for an executed
command line — the validation code on binding failure, otherwise the
normalized handler result. -/
def dispatch_exit_code : BindOutcome → Int
  | .failed => validation_error_code
  | .bound r => normalize_result r

example :
    run_super (fun _ => 45) ⟨[("shared".data, "10".data)], ["arg1".data, "arg2".data]⟩
      [("shared".data, "15".data)] [("arg1".data, "giza".data), ("arg2".data, "22".data)] =
    45 := by decide
example : dispatch_exit_code .failed = 4 := by decide

/-! ## Claim theorems: pattern choice validator -/

/-- Claim C1, counterexample: the pattern choice validator applied to an empty
choices list is not false for every input — the regex-prefixed input `~`
(whose remainder, the empty pattern, compiles) returns true. -/
theorem C1_counterexample : matches_choice_pattern ['~'] [] = true := by decide

/-- Claim C1, amended: for every input that does not carry a `~` or `!~`
prefix, the validator applied to an empty choices list returns false;
`~`- and `!~`-prefixed inputs instead return the regex-validity of the
remainder even with empty choices. -/
theorem C1_empty_choices (v : Str) (h1 : v.take 1 ≠ ['~']) (h2 : v.take 2 ≠ ['!', '~']) :
    matches_choice_pattern v [] = false := by
  unfold matches_choice_pattern
  rw [if_neg h2, if_neg h1]
  by_cases h3 : v.take 1 = ['!']
  · rw [if_pos h3]
    simp
  · rw [if_neg h3]
    simp

/-- Claim C1, witness: the amended statement at the concrete input `a`. -/
theorem C1_witness :
    ("a".data.take 1 ≠ (['~'] : Str)) ∧ ("a".data.take 2 ≠ (['!', '~'] : Str)) ∧
      matches_choice_pattern "a".data [] = false :=
  ⟨by decide, by decide, C1_empty_choices "a".data (by decide) (by decide)⟩

/-- Claim C2: for every choices list and every pattern, the validator on
`~`-prefixed (and `!~`-prefixed) input returns exactly the regex-validity of
the pattern, independent of the choices; in particular `~[invalid` and
`!~[invalid` are rejected for every choices list. -/
theorem C2_regex_validity (C : List Choice) (p : Str) :
    matches_choice_pattern ('~' :: p) C = reCompileOk p ∧
    matches_choice_pattern ('!' :: '~' :: p) C = reCompileOk p ∧
    matches_choice_pattern ('~' :: "[invalid".data) C = false ∧
    matches_choice_pattern ('!' :: '~' :: "[invalid".data) C = false := by
  have key1 : ∀ q : Str, matches_choice_pattern ('~' :: q) C = reCompileOk q := by
    intro q
    have h1 : ('~' :: q).take 2 ≠ ['!', '~'] := by
      rw [List.take_succ_cons]
      intro h
      injection h with hh _
      exact absurd hh (by decide)
    have h2 : ('~' :: q).take 1 = ['~'] := by
      rw [List.take_succ_cons, List.take_zero]
    unfold matches_choice_pattern
    rw [if_neg h1, if_pos h2, List.drop_succ_cons, List.drop_zero]
  have key2 : ∀ q : Str, matches_choice_pattern ('!' :: '~' :: q) C = reCompileOk q := by
    intro q
    have h1 : ('!' :: '~' :: q).take 2 = ['!', '~'] := by
      rw [List.take_succ_cons, List.take_succ_cons, List.take_zero]
    unfold matches_choice_pattern
    rw [if_pos h1, List.drop_succ_cons, List.drop_succ_cons, List.drop_zero]
  refine ⟨key1 p, key2 p, ?_, ?_⟩
  · rw [key1]
    decide
  · rw [key2]
    decide

/-- Claim C3: for every choices list and every literal input `!x` where `x`
does not start with `~`, the validator returns true exactly when `x` is a
member of the stringified choices. -/
theorem C3_negation_membership (x : Str) (C : List Choice) (h : x.take 1 ≠ ['~']) :
    matches_choice_pattern ('!' :: x) C = decide (x ∈ C.map choice_str) ∧
      (matches_choice_pattern ('!' :: x) C = true ↔ x ∈ C.map choice_str) := by
  have h1 : ('!' :: x).take 2 ≠ ['!', '~'] := by
    rw [List.take_succ_cons]
    intro hc
    injection hc with _ h2
    exact h h2
  have h2 : ('!' :: x).take 1 ≠ ['~'] := by
    rw [List.take_succ_cons, List.take_zero]
    intro hc
    injection hc with hh _
    exact absurd hh (by decide)
  have h3 : ('!' :: x).take 1 = ['!'] := by
    rw [List.take_succ_cons, List.take_zero]
  have key : matches_choice_pattern ('!' :: x) C = decide (x ∈ C.map choice_str) := by
    unfold matches_choice_pattern
    rw [if_neg h1, if_neg h2, if_pos h3, List.drop_succ_cons, List.drop_zero]
  exact ⟨key, by rw [key]; simp⟩

/-- Claim C3, witness: the negation form at the concrete input `!a1` against
choices `[a, a1]` (member, accepted) together with its hypothesis. -/
theorem C3_witness :
    ("a1".data.take 1 ≠ (['~'] : Str)) ∧
      matches_choice_pattern ('!' :: "a1".data) [Choice.s "a".data, Choice.s "a1".data] =
        decide ("a1".data ∈ [Choice.s "a".data, Choice.s "a1".data].map choice_str) :=
  ⟨by decide, (C3_negation_membership "a1".data [Choice.s "a".data, Choice.s "a1".data]
    (by decide)).1⟩

/-! ## Claim theorems: name normalizer failure -/

/-- Claim C9: every input whose collapsed and edge-stripped form is empty
makes the name normalizer fail with the invalid-name error instead of
returning a value. -/
theorem C9_empty_name_error (x : Str)
    (h : strip_edges '-' (collapse_runs '_' '-' (py_strip x)) = []) :
    transform_name x '_' '-' = .error "Invalid name \"\"".data := by
  simp only [transform_name]
  rw [if_pos h]

/-- Claim C9, witness: the all-separators name `___` reduces to empty and the
normalizer fails on it. -/
theorem C9_witness :
    strip_edges '-' (collapse_runs '_' '-' (py_strip "___".data)) = ([] : Str) ∧
      transform_name "___".data '_' '-' = .error "Invalid name \"\"".data :=
  ⟨by decide, C9_empty_name_error "___".data (by decide)⟩

/-! ## Claim theorems: dispatcher exit codes -/

/-- Claim C5: the dispatcher normalizes a `None`-equivalent handler return to
exit code 0, an explicit integer return to that integer, a validation failure
to the distinguished validation code 4, and an uncaught handler error to a
fatal code distinct from the validation code. -/
theorem C5_exit_code_normalization (i : Int) :
    dispatch_exit_code (.bound .retNone) = 0 ∧
    dispatch_exit_code (.bound (.retInt i)) = i ∧
    dispatch_exit_code .failed = validation_error_code ∧
    validation_error_code = 4 ∧
    dispatch_exit_code (.bound .raised) = fatal_error_code ∧
    fatal_error_code ≠ validation_error_code :=
  ⟨rfl, rfl, rfl, rfl, rfl, by decide⟩

/-! ## Claim theorems: super-command shared-argument binding -/

/-- Splitting a keyword list around an append: the last binding for a name is
found in the right part first. -/
theorem last_assoc_append (l1 l2 : List (Str × Str)) (k : Str) :
    last_assoc (l1 ++ l2) k =
      match last_assoc l2 k with
      | some r => some r
      | none => last_assoc l1 k := by
  induction l1 with
  | nil =>
    cases h : last_assoc l2 k <;> simp [last_assoc, h]
  | cons p l ih =>
    rcases p with ⟨k2, v2⟩
    cases h : last_assoc l2 k <;>
      simp [List.cons_append, last_assoc, ih, h]

/-- A keyword list binding no token named `k` yields no last binding for `k`. -/
theorem last_assoc_eq_none (l : List (Str × Str)) (k : Str) (h : ∀ p ∈ l, p.1 ≠ k) :
    last_assoc l k = none := by
  induction l with
  | nil => rfl
  | cons p rest ih =>
    rcases p with ⟨k2, v2⟩
    have hne : k2 ≠ k := h (k2, v2) (by simp)
    have ihr : last_assoc rest k = none := ih (fun q hq => h q (by simp [hq]))
    simp [last_assoc, ihr, hne]

/-- Claim C4: shared (constructor) arguments of a super-command bind
order-independently with respect to the subcommand token — a shared keyword
token placed before the subcommand token (`pre`) or after the subcommand's own
arguments (`post`) yields the same bound call frame and the same handler
result, provided `post` binds the name only once. -/
theorem C4_shared_argument_order (sc : SuperSpec) (pre post : List (Str × Str))
    (n v : Str) (handler : SuperBinding → Int)
    (hmem : n ∈ shared_names sc)
    (hpost : (post.all fun p => !(p.1 == n)) = true) :
    bind_super sc (pre ++ [(n, v)]) post = bind_super sc pre (post ++ [(n, v)]) ∧
      run_super handler sc (pre ++ [(n, v)]) post =
        run_super handler sc pre (post ++ [(n, v)]) := by
  have hpost2 : ∀ p ∈ post, p.1 ≠ n := by
    intro p hp
    have := List.all_eq_true.mp hpost p hp
    simpa using this
  have hfilter_shared :
      (post ++ [(n, v)]).filter (fun p => decide (p.1 ∈ shared_names sc)) =
        post.filter (fun p => decide (p.1 ∈ shared_names sc)) ++ [(n, v)] := by
    rw [List.filter_append]
    simp [hmem]
  have hF : ∀ p ∈ post.filter (fun p => decide (p.1 ∈ shared_names sc)), p.1 ≠ n := by
    intro p hp
    exact hpost2 p (List.mem_of_mem_filter hp)
  have hbind : bind_super sc (pre ++ [(n, v)]) post = bind_super sc pre (post ++ [(n, v)]) := by
    unfold bind_super
    rw [hfilter_shared]
    have key : ∀ k : Str,
        last_assoc (pre ++ [(n, v)] ++
          post.filter (fun p => decide (p.1 ∈ shared_names sc))) k =
        last_assoc (pre ++
          (post.filter (fun p => decide (p.1 ∈ shared_names sc)) ++ [(n, v)])) k := by
      intro k
      by_cases hk : k = n
      · subst hk
        have hFn : last_assoc (post.filter (fun p => decide (p.1 ∈ shared_names sc))) k =
            none := last_assoc_eq_none _ _ hF
        simp only [List.append_assoc, last_assoc_append, hFn, last_assoc]
        simp [hFn]
      · have hsing : last_assoc [(n, v)] k = none := by
          simp [last_assoc, Ne.symm hk]
        simp only [List.append_assoc, last_assoc_append, hsing]
        cases hFk : last_assoc (post.filter (fun p => decide (p.1 ∈ shared_names sc))) k <;>
          simp [hFk]
    have hshared :
        (sc.shared_defaults.map fun d =>
          (d.1, (last_assoc (pre ++ [(n, v)] ++
            post.filter (fun p => decide (p.1 ∈ shared_names sc))) d.1).getD d.2)) =
        (sc.shared_defaults.map fun d =>
          (d.1, (last_assoc (pre ++
            (post.filter (fun p => decide (p.1 ∈ shared_names sc)) ++ [(n, v)])) d.1).getD
              d.2)) := by
      apply List.map_congr_left
      intro d _
      rw [key]
    have hsub :
        (post ++ [(n, v)]).filter
            (fun p => decide (p.1 ∈ sc.sub_args ∧ p.1 ∉ shared_names sc)) =
          post.filter (fun p => decide (p.1 ∈ sc.sub_args ∧ p.1 ∉ shared_names sc)) := by
      rw [List.filter_append]
      simp [hmem]
    simp only [SuperBinding.mk.injEq]
    exact ⟨hshared, hsub.symm⟩
  exact ⟨hbind, by unfold run_super; rw [hbind]⟩

/-- Claim C4, witness: the test scenario — shared argument `shared=15` placed
before the subcommand token or after `--arg1=giza --arg2=22` binds to the same
call frame. -/
theorem C4_witness :
    ("shared".data ∈ shared_names
        ⟨[("shared".data, "10".data)], ["arg1".data, "arg2".data]⟩) ∧
      (([("arg1".data, "giza".data), ("arg2".data, "22".data)].all
        fun p => !(p.1 == "shared".data)) = true) ∧
      bind_super ⟨[("shared".data, "10".data)], ["arg1".data, "arg2".data]⟩
          ([] ++ [("shared".data, "15".data)])
          [("arg1".data, "giza".data), ("arg2".data, "22".data)] =
        bind_super ⟨[("shared".data, "10".data)], ["arg1".data, "arg2".data]⟩ []
          ([("arg1".data, "giza".data), ("arg2".data, "22".data)] ++
            [("shared".data, "15".data)]) :=
  ⟨by decide, by decide,
    (C4_shared_argument_order ⟨[("shared".data, "10".data)], ["arg1".data, "arg2".data]⟩
      [] [("arg1".data, "giza".data), ("arg2".data, "22".data)]
      "shared".data "15".data (fun _ => 45) (by decide) (by decide)).1⟩

/-! ## Order facts for the sorting relations -/

/-- `str_le_b` is total. -/
theorem str_le_b_total (a b : Str) : str_le_b a b = true ∨ str_le_b b a = true := by
  induction a generalizing b with
  | nil => left; rfl
  | cons x xs ih =>
    cases b with
    | nil => right; rfl
    | cons y ys =>
      by_cases hxy : x = y
      · subst hxy
        rcases ih ys with h | h
        · left
          simp [str_le_b, h]
        · right
          simp [str_le_b, h]
      · rcases lt_trichotomy x y with h | h | h
        · left
          simp [str_le_b, hxy, h]
        · exact absurd h hxy
        · right
          simp [str_le_b, Ne.symm hxy, h]

/-- `str_le_b` is transitive. -/
theorem str_le_b_trans (a : Str) : ∀ b c : Str,
    str_le_b a b = true → str_le_b b c = true → str_le_b a c = true := by
  induction a with
  | nil => intro b c _ _; rfl
  | cons x xs ih =>
    intro b c hab hbc
    cases b with
    | nil => simp [str_le_b] at hab
    | cons y ys =>
      cases c with
      | nil => simp [str_le_b] at hbc
      | cons z zs =>
        by_cases hxy : x = y <;> by_cases hyz : y = z
        · subst hxy
          subst hyz
          simp only [str_le_b, if_pos rfl] at hab hbc ⊢
          exact ih ys zs hab hbc
        · subst hxy
          simp only [str_le_b, if_pos rfl] at hab
          simp only [str_le_b, if_neg hyz] at hbc
          simp [str_le_b, hyz, hbc]
        · subst hyz
          simp only [str_le_b, if_neg hxy] at hab
          simp [str_le_b, hxy, hab]
        · simp only [str_le_b, if_neg hxy] at hab
          simp only [str_le_b, if_neg hyz] at hbc
          have hlt : x < z := lt_trans (of_decide_eq_true hab) (of_decide_eq_true hbc)
          simp [str_le_b, ne_of_lt hlt, hlt]

instance : IsTotal Str str_le :=
  ⟨fun a b => str_le_b_total a b⟩

instance : IsTrans Str str_le :=
  ⟨fun a b c => str_le_b_trans a b c⟩

instance : IsTotal (Str × Nat) pair_le := by
  constructor
  intro a b
  rcases lt_trichotomy a.2 b.2 with h | h | h
  · exact Or.inl (Or.inl h)
  · rcases str_le_b_total a.1 b.1 with hs | hs
    · exact Or.inl (Or.inr ⟨h, hs⟩)
    · exact Or.inr (Or.inr ⟨h.symm, hs⟩)
  · exact Or.inr (Or.inl h)

instance : IsTrans (Str × Nat) pair_le := by
  constructor
  rintro a b c (hab | ⟨hab, hab2⟩) (hbc | ⟨hbc, hbc2⟩)
  · exact Or.inl (lt_trans hab hbc)
  · exact Or.inl (hbc ▸ hab)
  · exact Or.inl (hab ▸ hbc)
  · exact Or.inr ⟨hab.trans hbc, str_le_b_trans _ _ _ hab2 hbc2⟩

/-! ## Loop characterization of `find_approx` -/

/-- Effect of one loop iteration on the prefix-suggestion set. -/
theorem find_approx_step_prefix_mem (cmd_input c : Str) (acc : ApproxAcc) (x : Str) :
    x ∈ (find_approx_step cmd_input acc c).prefix_suggestions ↔
      x ∈ acc.prefix_suggestions ∨
        (x = c ∧ py_startswith c (str_lower cmd_input) = true) := by
  unfold find_approx_step
  by_cases h1 : py_startswith c (str_lower cmd_input) = true
  · rw [if_pos h1]
    by_cases h2 : c ∈ acc.prefix_suggestions
    · rw [if_pos h2]
      constructor
      · exact fun hx => Or.inl hx
      · rintro (hx | ⟨rfl, _⟩)
        · exact hx
        · exact h2
    · rw [if_neg h2]
      simp only [List.mem_append, List.mem_singleton]
      constructor
      · rintro (hx | rfl)
        · exact Or.inl hx
        · exact Or.inr ⟨rfl, h1⟩
      · rintro (hx | ⟨rfl, _⟩)
        · exact Or.inl hx
        · exact Or.inr rfl
  · rw [if_neg h1]
    by_cases h3 : 1 < c.length
    · rw [if_pos h3]
      by_cases h4 : damerau_levenshtein_distance (str_lower cmd_input) c ≤ 2
      · rw [if_pos h4]
        constructor
        · exact fun hx => Or.inl hx
        · rintro (hx | ⟨rfl, hp⟩)
          · exact hx
          · exact absurd hp h1
      · rw [if_neg h4]
        constructor
        · exact fun hx => Or.inl hx
        · rintro (hx | ⟨rfl, hp⟩)
          · exact hx
          · exact absurd hp h1
    · rw [if_neg h3]
      constructor
      · exact fun hx => Or.inl hx
      · rintro (hx | ⟨rfl, hp⟩)
        · exact hx
        · exact absurd hp h1

/-- The prefix component of the whole loop collects exactly the prefix
matches of the traversed names. -/
theorem find_approx_loop_prefix_mem (cmd_input : Str) (l : List Str) (acc : ApproxAcc)
    (x : Str) :
    x ∈ (l.foldl (find_approx_step cmd_input) acc).prefix_suggestions ↔
      x ∈ acc.prefix_suggestions ∨
        (x ∈ l ∧ py_startswith x (str_lower cmd_input) = true) := by
  induction l generalizing acc with
  | nil => simp
  | cons c rest ih =>
    rw [List.foldl_cons, ih, find_approx_step_prefix_mem]
    simp only [List.mem_cons]
    constructor
    · rintro ((hx | ⟨rfl, hp⟩) | ⟨hx, hp⟩)
      · exact Or.inl hx
      · exact Or.inr ⟨Or.inl rfl, hp⟩
      · exact Or.inr ⟨Or.inr hx, hp⟩
    · rintro (hx | ⟨rfl | hx, hp⟩)
      · exact Or.inl (Or.inl hx)
      · exact Or.inl (Or.inr ⟨rfl, hp⟩)
      · exact Or.inr ⟨hx, hp⟩

/-- Effect of one loop iteration on the distance dict. -/
theorem find_approx_step_lev (cmd_input c : Str) (acc : ApproxAcc) :
    (find_approx_step cmd_input acc c).levenshtein_suggestions =
      if py_startswith c (str_lower cmd_input) = true then acc.levenshtein_suggestions
      else if 1 < c.length ∧ damerau_levenshtein_distance (str_lower cmd_input) c ≤ 2 then
        dict_update acc.levenshtein_suggestions c
          (damerau_levenshtein_distance (str_lower cmd_input) c)
      else acc.levenshtein_suggestions := by
  unfold find_approx_step
  by_cases h1 : py_startswith c (str_lower cmd_input) = true
  · rw [if_pos h1, if_pos h1]
  · rw [if_neg h1, if_neg h1]
    by_cases h3 : 1 < c.length
    · rw [if_pos h3]
      by_cases h4 : damerau_levenshtein_distance (str_lower cmd_input) c ≤ 2
      · rw [if_pos h4, if_pos ⟨h3, h4⟩]
      · rw [if_neg h4, if_neg (fun hc => h4 hc.2)]
    · rw [if_neg h3, if_neg (fun hc => h3 hc.1)]

/-- `dict_update` preserves value coherence: when every stored distance is
the distance of its key and the new value is too, this stays true. -/
theorem dict_update_values (d : List (Str × Nat)) (k : Str) (v : Nat) (f : Str → Nat)
    (hd : ∀ p ∈ d, p.2 = f p.1) (hv : v = f k) :
    ∀ p ∈ dict_update d k v, p.2 = f p.1 := by
  intro p hp
  unfold dict_update at hp
  by_cases hany : (d.any fun p => decide (p.1 = k)) = true
  · rw [if_pos hany] at hp
    rcases List.mem_map.mp hp with ⟨q, hq, hgq⟩
    by_cases hqk : q.1 = k
    · rw [if_pos hqk] at hgq
      rw [← hgq]
      exact hv
    · rw [if_neg hqk] at hgq
      rw [← hgq]
      exact hd q hq
  · rw [if_neg hany] at hp
    rcases List.mem_append.mp hp with hp | hp
    · exact hd p hp
    · rcases List.mem_singleton.mp hp with rfl
      exact hv

/-- `dict_update` has exactly the old keys plus the updated one. -/
theorem dict_update_keys (d : List (Str × Nat)) (k : Str) (v : Nat) (x : Str) :
    (∃ w, (x, w) ∈ dict_update d k v) ↔ (∃ w, (x, w) ∈ d) ∨ x = k := by
  unfold dict_update
  by_cases hany : (d.any fun p => decide (p.1 = k)) = true
  · rw [if_pos hany]
    constructor
    · rintro ⟨w, hw⟩
      rcases List.mem_map.mp hw with ⟨q, hq, hgq⟩
      by_cases hqk : q.1 = k
      · rw [if_pos hqk] at hgq
        have : x = k := by
          have := congrArg Prod.fst hgq
          simpa using this.symm
        exact Or.inr this
      · rw [if_neg hqk] at hgq
        exact Or.inl ⟨w, hgq ▸ hq⟩
    · rintro (⟨w, hw⟩ | rfl)
      · by_cases hxk : x = k
        · subst hxk
          rcases List.any_eq_true.mp hany with ⟨q, hq, hqk⟩
          refine ⟨v, List.mem_map.mpr ⟨q, hq, ?_⟩⟩
          rw [if_pos (of_decide_eq_true hqk)]
        · refine ⟨w, List.mem_map.mpr ⟨(x, w), hw, ?_⟩⟩
          rw [if_neg hxk]
      · rcases List.any_eq_true.mp hany with ⟨q, hq, hqk⟩
        refine ⟨v, List.mem_map.mpr ⟨q, hq, ?_⟩⟩
        rw [if_pos (of_decide_eq_true hqk)]
  · rw [if_neg hany]
    constructor
    · rintro ⟨w, hw⟩
      rcases List.mem_append.mp hw with hw | hw
      · exact Or.inl ⟨w, hw⟩
      · rcases List.mem_singleton.mp hw with heq
        have : x = k := by
          have := congrArg Prod.fst heq
          simpa using this
        exact Or.inr this
    · rintro (⟨w, hw⟩ | rfl)
      · exact ⟨w, List.mem_append.mpr (Or.inl hw)⟩
      · exact ⟨v, List.mem_append.mpr (Or.inr (List.mem_singleton.mpr rfl))⟩

/-- Every distance stored by the loop is the distance of its key. -/
theorem find_approx_loop_lev_values (cmd_input : Str) (l : List Str) (acc : ApproxAcc)
    (hacc : ∀ p ∈ acc.levenshtein_suggestions,
      p.2 = damerau_levenshtein_distance (str_lower cmd_input) p.1) :
    ∀ p ∈ (l.foldl (find_approx_step cmd_input) acc).levenshtein_suggestions,
      p.2 = damerau_levenshtein_distance (str_lower cmd_input) p.1 := by
  induction l generalizing acc with
  | nil => exact hacc
  | cons c rest ih =>
    rw [List.foldl_cons]
    apply ih
    intro p hp
    rw [find_approx_step_lev] at hp
    by_cases h1 : py_startswith c (str_lower cmd_input) = true
    · rw [if_pos h1] at hp
      exact hacc p hp
    · rw [if_neg h1] at hp
      by_cases h2 : 1 < c.length ∧
          damerau_levenshtein_distance (str_lower cmd_input) c ≤ 2
      · rw [if_pos h2] at hp
        exact dict_update_values _ _ _ _ hacc rfl p hp
      · rw [if_neg h2] at hp
        exact hacc p hp

/-- The distance dict of the whole loop has exactly the non-prefix names of
length greater than one at distance at most 2. -/
theorem find_approx_loop_lev_keys (cmd_input : Str) (l : List Str) (acc : ApproxAcc)
    (x : Str) :
    (∃ w, (x, w) ∈ (l.foldl (find_approx_step cmd_input) acc).levenshtein_suggestions) ↔
      (∃ w, (x, w) ∈ acc.levenshtein_suggestions) ∨
        (x ∈ l ∧ ¬py_startswith x (str_lower cmd_input) = true ∧ 1 < x.length ∧
          damerau_levenshtein_distance (str_lower cmd_input) x ≤ 2) := by
  induction l generalizing acc with
  | nil => simp
  | cons c rest ih =>
    rw [List.foldl_cons, ih, find_approx_step_lev]
    by_cases h1 : py_startswith c (str_lower cmd_input) = true
    · rw [if_pos h1]
      simp only [List.mem_cons]
      constructor
      · rintro (hin | ⟨hx, hconds⟩)
        · exact Or.inl hin
        · exact Or.inr ⟨Or.inr hx, hconds⟩
      · rintro (hin | ⟨rfl | hx, hconds⟩)
        · exact Or.inl hin
        · exact absurd h1 hconds.1
        · exact Or.inr ⟨hx, hconds⟩
    · rw [if_neg h1]
      by_cases h2 : 1 < c.length ∧
          damerau_levenshtein_distance (str_lower cmd_input) c ≤ 2
      · rw [if_pos h2, dict_update_keys]
        simp only [List.mem_cons]
        constructor
        · rintro ((hin | rfl) | ⟨hx, hconds⟩)
          · exact Or.inl hin
          · exact Or.inr ⟨Or.inl rfl, h1, h2.1, h2.2⟩
          · exact Or.inr ⟨Or.inr hx, hconds⟩
        · rintro (hin | ⟨rfl | hx, hconds⟩)
          · exact Or.inl (Or.inl hin)
          · exact Or.inl (Or.inr rfl)
          · exact Or.inr ⟨hx, hconds⟩
      · rw [if_neg h2]
        simp only [List.mem_cons]
        constructor
        · rintro (hin | ⟨hx, hconds⟩)
          · exact Or.inl hin
          · exact Or.inr ⟨Or.inr hx, hconds⟩
        · rintro (hin | ⟨rfl | hx, hconds⟩)
          · exact Or.inl hin
          · exact absurd ⟨hconds.2.1, hconds.2.2⟩ h2
          · exact Or.inr ⟨hx, hconds⟩

/-- When some name prefix-matches, `find_approx` returns exactly the sorted
prefix matches. -/
theorem find_approx_prefix_case (cmd_input : Str) (cmd_map : List Str) (x : Str)
    (h : ∃ c ∈ cmd_map, py_startswith c (str_lower cmd_input) = true) :
    (x ∈ find_approx cmd_input cmd_map ↔
      (x ∈ cmd_map ∧ py_startswith x (str_lower cmd_input) = true)) ∧
    List.Sorted str_le (find_approx cmd_input cmd_map) := by
  simp only [find_approx]
  have hne : (cmd_map.foldl (find_approx_step cmd_input)
      (⟨[], []⟩ : ApproxAcc)).prefix_suggestions ≠ [] := by
    rcases h with ⟨c, hc, hpc⟩
    intro hnil
    have hmem : c ∈ (cmd_map.foldl (find_approx_step cmd_input)
        (⟨[], []⟩ : ApproxAcc)).prefix_suggestions :=
      (find_approx_loop_prefix_mem _ _ _ _).mpr (Or.inr ⟨hc, hpc⟩)
    rw [hnil] at hmem
    exact absurd hmem (List.not_mem_nil c)
  rw [if_neg hne]
  constructor
  · rw [(List.perm_insertionSort str_le _).mem_iff, find_approx_loop_prefix_mem]
    simp
  · exact List.sorted_insertionSort str_le _

/-- Claim C6: whenever at least one known name has the lower-cased typed
string as a prefix, the suggestion engine returns exactly the prefix-matching
known names, lexicographically sorted — no edit-distance candidate appears. -/
theorem C6_prefix_suppresses_distance (cmd_input : Str) (cmd_map : List Str) (x : Str)
    (h : (cmd_map.any fun c => py_startswith c (str_lower cmd_input)) = true) :
    (x ∈ find_approx cmd_input cmd_map ↔
      (x ∈ cmd_map ∧ py_startswith x (str_lower cmd_input) = true)) ∧
    List.Sorted str_le (find_approx cmd_input cmd_map) := by
  rcases List.any_eq_true.mp h with ⟨c, hc, hpc⟩
  exact find_approx_prefix_case cmd_input cmd_map x ⟨c, hc, hpc⟩

/-- Claim C6, witness: typed `b` against known `{a, a1, b1, a2a1}` returns
exactly `[b1]`. -/
theorem C6_witness :
    ((["a".data, "a1".data, "b1".data, "a2a1".data].any
        fun c => py_startswith c (str_lower "b".data)) = true) ∧
      find_approx "b".data ["a".data, "a1".data, "b1".data, "a2a1".data] = ["b1".data] ∧
      ("b1".data ∈ find_approx "b".data ["a".data, "a1".data, "b1".data, "a2a1".data] ↔
        ("b1".data ∈ ["a".data, "a1".data, "b1".data, "a2a1".data] ∧
          py_startswith "b1".data (str_lower "b".data) = true)) :=
  ⟨by decide, by decide,
    (C6_prefix_suppresses_distance "b".data
      ["a".data, "a1".data, "b1".data, "a2a1".data] "b1".data (by decide)).1⟩

/-- Claim C10: for the empty typed string, every known name prefix-matches,
so the engine returns all known names sorted — single-character names
included. -/
theorem C10_empty_typed (cmd_map : List Str) (x : Str) (h : cmd_map ≠ []) :
    (x ∈ find_approx [] cmd_map ↔ x ∈ cmd_map) ∧
      List.Sorted str_le (find_approx [] cmd_map) := by
  have hall : ∀ c : Str, py_startswith c (str_lower []) = true := by
    intro c
    cases c <;> rfl
  obtain ⟨c, hc⟩ : ∃ c, c ∈ cmd_map := List.exists_mem_of_ne_nil cmd_map h
  have base := find_approx_prefix_case [] cmd_map x ⟨c, hc, hall c⟩
  refine ⟨base.1.trans ?_, base.2⟩
  simp [hall x]

/-- Claim C10, witness: the empty typed string against `{b1, ?, a}` returns
all names sorted, the single-character `?` included. -/
theorem C10_witness :
    (["b1".data, "?".data, "a".data] ≠ ([] : List Str)) ∧
      find_approx [] ["b1".data, "?".data, "a".data] =
        ["?".data, "a".data, "b1".data] ∧
      ("?".data ∈ find_approx [] ["b1".data, "?".data, "a".data] ↔
        "?".data ∈ ["b1".data, "?".data, "a".data]) :=
  ⟨by decide, by decide,
    (C10_empty_typed ["b1".data, "?".data, "a".data] "?".data (by decide)).1⟩

/-- Transport of sortedness from the (name, distance) pairs to the names,
once every stored distance is determined by its key. -/
theorem pairwise_rank_of_pairwise_pair (f : Str → Nat) (l : List (Str × Nat))
    (hval : ∀ p ∈ l, p.2 = f p.1) (hs : List.Pairwise pair_le l) :
    List.Pairwise (fun a b => f a < f b ∨ (f a = f b ∧ str_le a b)) (l.map Prod.fst) := by
  induction l with
  | nil => simp
  | cons p rest ih =>
    rw [List.map_cons]
    rcases List.pairwise_cons.mp hs with ⟨hhead, htail⟩
    refine List.pairwise_cons.mpr
      ⟨?_, ih (fun q hq => hval q (List.mem_cons_of_mem _ hq)) htail⟩
    intro b hb
    rcases List.mem_map.mp hb with ⟨q, hq, rfl⟩
    have hpq := hhead q hq
    have h1 : p.2 = f p.1 := hval p (List.mem_cons_self _ _)
    have h2 : q.2 = f q.1 := hval q (List.mem_cons_of_mem _ hq)
    rcases hpq with hlt | ⟨heq, hstr⟩
    · rw [h1, h2] at hlt
      exact Or.inl hlt
    · rw [h1, h2] at heq
      exact Or.inr ⟨heq, hstr⟩

/-- Claim C7: when no known name prefix-matches, the suggestion engine
returns exactly the known names of length greater than one whose
Damerau-Levenshtein distance from the lower-cased typed string is at most 2,
sorted by distance and then by name. -/
theorem C7_distance_fallback (cmd_input : Str) (cmd_map : List Str) (x : Str)
    (h : (cmd_map.all fun c => !py_startswith c (str_lower cmd_input)) = true) :
    (x ∈ find_approx cmd_input cmd_map ↔
      (x ∈ cmd_map ∧ 1 < x.length ∧
        damerau_levenshtein_distance (str_lower cmd_input) x ≤ 2)) ∧
    List.Sorted (fun a b =>
      damerau_levenshtein_distance (str_lower cmd_input) a <
          damerau_levenshtein_distance (str_lower cmd_input) b ∨
        (damerau_levenshtein_distance (str_lower cmd_input) a =
            damerau_levenshtein_distance (str_lower cmd_input) b ∧ str_le a b))
      (find_approx cmd_input cmd_map) := by
  have hnopref : ∀ c ∈ cmd_map, ¬py_startswith c (str_lower cmd_input) = true := by
    intro c hc
    have := List.all_eq_true.mp h c hc
    simpa using this
  simp only [find_approx]
  have hempty : (cmd_map.foldl (find_approx_step cmd_input)
      (⟨[], []⟩ : ApproxAcc)).prefix_suggestions = [] := by
    rw [List.eq_nil_iff_forall_not_mem]
    intro y hy
    rcases (find_approx_loop_prefix_mem _ _ _ _).mp hy with hy0 | ⟨hy1, hy2⟩
    · exact absurd hy0 (List.not_mem_nil y)
    · exact hnopref y hy1 hy2
  rw [if_pos hempty]
  have hvals : ∀ p ∈ (cmd_map.foldl (find_approx_step cmd_input)
      (⟨[], []⟩ : ApproxAcc)).levenshtein_suggestions,
      p.2 = damerau_levenshtein_distance (str_lower cmd_input) p.1 := by
    apply find_approx_loop_lev_values
    intro p hp
    exact absurd hp (List.not_mem_nil p)
  constructor
  · constructor
    · intro hx
      rcases List.mem_map.mp hx with ⟨p, hp, hfst⟩
      have hp2 : p ∈ (cmd_map.foldl (find_approx_step cmd_input)
          (⟨[], []⟩ : ApproxAcc)).levenshtein_suggestions :=
        (List.perm_insertionSort pair_le _).mem_iff.mp hp
      have hkey : ∃ w, (x, w) ∈ (cmd_map.foldl (find_approx_step cmd_input)
          (⟨[], []⟩ : ApproxAcc)).levenshtein_suggestions := by
        refine ⟨p.2, ?_⟩
        rw [← hfst]
        exact hp2
      rcases (find_approx_loop_lev_keys _ _ _ _).mp hkey with ⟨w, hw⟩ | ⟨hx1, _, hx3, hx4⟩
      · exact absurd hw (List.not_mem_nil (x, w))
      · exact ⟨hx1, hx3, hx4⟩
    · rintro ⟨hx1, hx2, hx3⟩
      have hkey : ∃ w, (x, w) ∈ (cmd_map.foldl (find_approx_step cmd_input)
          (⟨[], []⟩ : ApproxAcc)).levenshtein_suggestions :=
        (find_approx_loop_lev_keys _ _ _ _).mpr
          (Or.inr ⟨hx1, hnopref x hx1, hx2, hx3⟩)
      rcases hkey with ⟨w, hw⟩
      exact List.mem_map.mpr
        ⟨(x, w), (List.perm_insertionSort pair_le _).mem_iff.mpr hw, rfl⟩
  · apply pairwise_rank_of_pairwise_pair
    · intro p hp
      exact hvals p ((List.perm_insertionSort pair_le _).mem_iff.mp hp)
    · exact List.sorted_insertionSort pair_le _

/-- Claim C7, witness: unregistered `lookupp` against `{lookup, double,
triple}` suggests exactly `[lookup]`. -/
theorem C7_witness :
    ((["lookup".data, "double".data, "triple".data].all
        fun c => !py_startswith c (str_lower "lookupp".data)) = true) ∧
      find_approx "lookupp".data ["lookup".data, "double".data, "triple".data] =
        ["lookup".data] ∧
      ("lookup".data ∈
          find_approx "lookupp".data ["lookup".data, "double".data, "triple".data] ↔
        ("lookup".data ∈ ["lookup".data, "double".data, "triple".data] ∧
          1 < "lookup".data.length ∧
          damerau_levenshtein_distance (str_lower "lookupp".data) "lookup".data ≤ 2)) :=
  ⟨by decide, by decide,
    (C7_distance_fallback "lookupp".data ["lookup".data, "double".data, "triple".data]
      "lookup".data (by decide)).1⟩

/-! ## Idempotence of the name normalizer -/

/-- An alphabetic character is not whitespace. -/
theorem char_alpha_not_ws (c : Char) (h : c.isAlpha = true) : c.isWhitespace = false := by
  cases hb : c.isWhitespace with
  | false => rfl
  | true =>
    exfalso
    have hw := hb
    simp only [Char.isWhitespace, Bool.or_eq_true, decide_eq_true_eq] at hw
    rcases hw with ((rfl | rfl) | rfl) | rfl <;> exact absurd h (by decide)

/-- An alphabetic character is not the dash separator. -/
theorem char_alpha_ne_dash (c : Char) (h : c.isAlpha = true) : c ≠ '-' := by
  rintro rfl
  exact absurd h (by decide)

/-- An alphabetic character is not the underscore separator. -/
theorem char_alpha_ne_underscore (c : Char) (h : c.isAlpha = true) : c ≠ '_' := by
  rintro rfl
  exact absurd h (by decide)

/-- `py_strip` only keeps characters of its input. -/
theorem py_strip_subset (s : Str) : ∀ c ∈ py_strip s, c ∈ s := by
  intro c hc
  unfold py_strip at hc
  rw [List.mem_reverse] at hc
  have h1 := (List.dropWhile_sublist Char.isWhitespace).subset hc
  rw [List.mem_reverse] at h1
  exact (List.dropWhile_sublist Char.isWhitespace).subset h1

/-- A whitespace-free string is untouched by `py_strip`. -/
theorem py_strip_id (s : Str) (h : ∀ c ∈ s, c.isWhitespace = false) : py_strip s = s := by
  have key : ∀ t : Str, (∀ c ∈ t, c.isWhitespace = false) →
      t.dropWhile Char.isWhitespace = t := by
    intro t ht
    cases t with
    | nil => rfl
    | cons a l =>
      rw [List.dropWhile_cons, ht a (List.mem_cons_self a l)]
      simp
  unfold py_strip
  rw [key s h]
  rw [key s.reverse (fun c hc => h c (List.mem_reverse.mp hc))]
  exact List.reverse_reverse s

/-- Unfolding equation: collapsing a one-element string. -/
theorem collapse_singleton (ci co x : Char) :
    collapse_runs ci co [x] = if x = ci then [co] else [x] := rfl

/-- Unfolding equation: collapsing a two-or-more-element string. -/
theorem collapse_cons2 (ci co x y : Char) (xs : Str) :
    collapse_runs ci co (x :: y :: xs) =
      if x = ci then
        if y = ci then collapse_runs ci co (y :: xs)
        else co :: collapse_runs ci co (y :: xs)
      else x :: collapse_runs ci co (y :: xs) := rfl

/-- Every output character of `collapse_runs` is a non-separator input
character or the output separator. -/
theorem collapse_chars (ci co : Char) (s : Str) :
    ∀ c ∈ collapse_runs ci co s, (c ∈ s ∧ c ≠ ci) ∨ c = co := by
  induction s with
  | nil => intro c hc; exact absurd hc (List.not_mem_nil c)
  | cons x xs ih =>
    cases xs with
    | nil =>
      intro c hc
      by_cases hx : x = ci
      · rw [collapse_singleton, if_pos hx] at hc
        exact Or.inr (List.mem_singleton.mp hc)
      · rw [collapse_singleton, if_neg hx] at hc
        rcases List.mem_singleton.mp hc with rfl
        exact Or.inl ⟨List.mem_singleton.mpr rfl, hx⟩
    | cons y ys =>
      intro c hc
      rw [collapse_cons2] at hc
      by_cases hx : x = ci
      · rw [if_pos hx] at hc
        by_cases hy : y = ci
        · rw [if_pos hy] at hc
          rcases ih c hc with ⟨hmem, hne⟩ | hco
          · exact Or.inl ⟨List.mem_cons_of_mem x hmem, hne⟩
          · exact Or.inr hco
        · rw [if_neg hy] at hc
          rcases List.mem_cons.mp hc with rfl | hc2
          · exact Or.inr rfl
          · rcases ih c hc2 with ⟨hmem, hne⟩ | hco
            · exact Or.inl ⟨List.mem_cons_of_mem x hmem, hne⟩
            · exact Or.inr hco
      · rw [if_neg hx] at hc
        rcases List.mem_cons.mp hc with rfl | hc2
        · exact Or.inl ⟨List.mem_cons_self c _, hx⟩
        · rcases ih c hc2 with ⟨hmem, hne⟩ | hco
          · exact Or.inl ⟨List.mem_cons_of_mem x hmem, hne⟩
          · exact Or.inr hco

/-- A separator-free string is untouched by `collapse_runs`. -/
theorem collapse_id (ci co : Char) (s : Str) (h : ci ∉ s) : collapse_runs ci co s = s := by
  induction s with
  | nil => rfl
  | cons x xs ih =>
    have hx : x ≠ ci := fun hc => h (hc ▸ List.mem_cons_self x xs)
    have hxs : ci ∉ xs := fun hc => h (List.mem_cons_of_mem x hc)
    cases xs with
    | nil => rw [collapse_singleton, if_neg hx]
    | cons y ys => rw [collapse_cons2, if_neg hx, ih hxs]

/-- The collapse of a string headed by a non-separator keeps that head. -/
theorem collapse_head_ne (ci co x : Char) (xs : Str) (hx : x ≠ ci) :
    (collapse_runs ci co (x :: xs)).head? = some x := by
  cases xs with
  | nil => rw [collapse_singleton, if_neg hx]; rfl
  | cons y ys => rw [collapse_cons2, if_neg hx]; rfl

/-- The no-adjacent-output-separators relation. -/
def no_dd (co : Char) (a b : Char) : Prop := ¬(a = co ∧ b = co)

/-- Collapsing a string that contains no output separator never produces two
adjacent output separators. -/
theorem collapse_chain (ci co : Char) (s : Str) (hco : co ∉ s) :
    List.Chain' (no_dd co) (collapse_runs ci co s) := by
  induction s with
  | nil => exact List.chain'_nil
  | cons x xs ih =>
    have hco_x : x ≠ co := fun h => hco (h ▸ List.mem_cons_self x xs)
    have hco_xs : co ∉ xs := fun h => hco (List.mem_cons_of_mem x h)
    cases xs with
    | nil =>
      by_cases hx : x = ci
      · rw [collapse_singleton, if_pos hx]
        exact List.chain'_singleton co
      · rw [collapse_singleton, if_neg hx]
        exact List.chain'_singleton x
    | cons y ys =>
      have ih2 := ih hco_xs
      have hco_y : y ≠ co := fun h => hco_xs (h ▸ List.mem_cons_self y ys)
      rw [collapse_cons2]
      by_cases hx : x = ci
      · rw [if_pos hx]
        by_cases hy : y = ci
        · rw [if_pos hy]
          exact ih2
        · rw [if_neg hy]
          rw [List.chain'_cons']
          refine ⟨?_, ih2⟩
          intro b hb
          rw [collapse_head_ne ci co y ys hy] at hb
          have hb2 : y = b := by simpa using hb
          intro hcontra
          exact hco_y (hb2.symm ▸ hcontra.2)
      · rw [if_neg hx]
        rw [List.chain'_cons']
        refine ⟨?_, ih2⟩
        intro b hb
        intro hcontra
        exact hco_x hcontra.1

/-- Unfolding equation for `strip_one` on a non-empty string. -/
theorem strip_one_cons (co x : Char) (xs : Str) :
    strip_one co (x :: xs) = if x = co then xs else x :: xs := rfl

/-- `strip_one` keeps the no-adjacent invariant. -/
theorem strip_one_chain (co : Char) (s : Str) (h : List.Chain' (no_dd co) s) :
    List.Chain' (no_dd co) (strip_one co s) := by
  cases s with
  | nil => exact List.chain'_nil
  | cons x xs =>
    rw [strip_one_cons]
    by_cases hx : x = co
    · rw [if_pos hx]
      exact (List.chain'_cons'.mp h).2
    · rw [if_neg hx]
      exact h

/-- The no-adjacent invariant is symmetric, so it survives reversal. -/
theorem chain_no_dd_reverse (co : Char) (s : Str) (h : List.Chain' (no_dd co) s) :
    List.Chain' (no_dd co) s.reverse := by
  rw [List.chain'_reverse]
  exact h.imp (fun a b hab => fun hc => hab ⟨hc.2, hc.1⟩)

/-- The head of `strip_one` of a no-adjacent string is never the separator. -/
theorem strip_one_head (co : Char) (s : Str) (h : List.Chain' (no_dd co) s) :
    ∀ c, (strip_one co s).head? = some c → c ≠ co := by
  intro c hc
  cases s with
  | nil => simp [strip_one] at hc
  | cons x xs =>
    rw [strip_one_cons] at hc
    by_cases hx : x = co
    · rw [if_pos hx] at hc
      have hhead := (List.chain'_cons'.mp h).1
      have hmem : c ∈ xs.head? := by
        rw [hc]
        rfl
      have hxc := hhead c hmem
      intro hcc
      exact hxc ⟨hx, hcc⟩
    · rw [if_neg hx] at hc
      have : c = x := by
        simp only [List.head?_cons, Option.some.injEq] at hc
        exact hc.symm
      exact this ▸ hx

/-- `strip_one` keeps only input characters. -/
theorem strip_one_subset (co : Char) (s : Str) : ∀ c ∈ strip_one co s, c ∈ s := by
  intro c hc
  cases s with
  | nil => exact hc
  | cons x xs =>
    rw [strip_one_cons] at hc
    by_cases hx : x = co
    · rw [if_pos hx] at hc
      exact List.mem_cons_of_mem x hc
    · rw [if_neg hx] at hc
      exact hc

/-- `strip_edges` keeps only input characters. -/
theorem strip_edges_subset (co : Char) (s : Str) : ∀ c ∈ strip_edges co s, c ∈ s := by
  intro c hc
  unfold strip_edges at hc
  rw [List.mem_reverse] at hc
  have h1 := strip_one_subset co _ c hc
  rw [List.mem_reverse] at h1
  exact strip_one_subset co s c h1

/-- A string whose head is not the separator is untouched by `strip_one`. -/
theorem strip_one_id (co : Char) (s : Str) (h : s.head? ≠ some co) : strip_one co s = s := by
  cases s with
  | nil => rfl
  | cons x xs =>
    rw [strip_one_cons]
    rw [if_neg (fun hx : x = co => h (by rw [hx]; rfl))]

/-- A string with neither a leading nor a trailing separator is untouched by
`strip_edges`. -/
theorem strip_edges_id (co : Char) (s : Str) (h1 : s.head? ≠ some co)
    (h2 : s.getLast? ≠ some co) : strip_edges co s = s := by
  unfold strip_edges
  rw [strip_one_id co s h1]
  rw [strip_one_id co s.reverse (by rw [List.head?_reverse]; exact h2)]
  exact List.reverse_reverse s

/-- `strip_one` either empties the string or keeps its last element. -/
theorem strip_one_getLast (co : Char) (w : Str) :
    strip_one co w = [] ∨ (strip_one co w).getLast? = w.getLast? := by
  cases w with
  | nil => exact Or.inl rfl
  | cons a t =>
    rw [strip_one_cons]
    by_cases ha : a = co
    · rw [if_pos ha]
      cases t with
      | nil => exact Or.inl rfl
      | cons b t2 => exact Or.inr (List.getLast?_cons_cons).symm
    · rw [if_neg ha]
      exact Or.inr rfl

/-- Edge-stripping a no-adjacent string leaves neither a leading nor a
trailing separator (when anything is left at all). -/
theorem strip_edges_ends (co : Char) (z : Str)
    (hch : List.Chain' (no_dd co) z) (hne : strip_edges co z ≠ []) :
    (strip_edges co z).head? ≠ some co ∧ (strip_edges co z).getLast? ≠ some co := by
  have hch1 : List.Chain' (no_dd co) (strip_one co z) := strip_one_chain co z hch
  have hch1r : List.Chain' (no_dd co) (strip_one co z).reverse :=
    chain_no_dd_reverse co _ hch1
  constructor
  · unfold strip_edges
    rw [List.head?_reverse]
    rcases strip_one_getLast co (strip_one co z).reverse with hnil | heq
    · exfalso
      apply hne
      unfold strip_edges
      rw [hnil]
      rfl
    · rw [heq, List.getLast?_reverse]
      intro hhead
      exact strip_one_head co z hch co hhead rfl
  · unfold strip_edges
    rw [List.getLast?_reverse]
    intro hhead
    exact strip_one_head co _ hch1r co hhead rfl

/-- A non-empty name made of alphabetic characters and interior dashes is a
fixed point of `transform_name`. -/
theorem transform_name_fixed (y : Str) (hne : y ≠ [])
    (hchars : ∀ c ∈ y, c.isAlpha = true ∨ c = '-')
    (hh : y.head? ≠ some '-') (hl : y.getLast? ≠ some '-') :
    transform_name y '_' '-' = .ok y := by
  have hws : ∀ c ∈ y, c.isWhitespace = false := by
    intro c hc
    rcases hchars c hc with h | rfl
    · exact char_alpha_not_ws c h
    · decide
  have hnound : '_' ∉ y := by
    intro hu
    rcases hchars '_' hu with h | h
    · exact char_alpha_ne_underscore '_' h rfl
    · exact absurd h (by decide)
  simp only [transform_name]
  rw [py_strip_id y hws, collapse_id '_' '-' y hnound, strip_edges_id '-' y hh hl,
    if_neg hne]

/-- Claim C8: name normalization is idempotent on non-empty alphabetic and
separator input — a successful `transform_name` output normalizes to itself. -/
theorem C8_transform_name_idempotent (x : Str)
    (hdom : (x.all fun c => c.isAlpha || c == '_') = true)
    (y : Str) (hok : transform_name x '_' '-' = .ok y) :
    transform_name y '_' '-' = .ok y := by
  have hx : ∀ c ∈ x, c.isAlpha = true ∨ c = '_' := by
    intro c hc
    have h2 := List.all_eq_true.mp hdom c hc
    simp only [Bool.or_eq_true, beq_iff_eq] at h2
    exact h2
  have hok2 := hok
  simp only [transform_name] at hok2
  by_cases hnil : strip_edges '-' (collapse_runs '_' '-' (py_strip x)) = []
  · rw [if_pos hnil] at hok2
    exact absurd hok2 (by simp)
  · rw [if_neg hnil] at hok2
    have hy : strip_edges '-' (collapse_runs '_' '-' (py_strip x)) = y := by
      injection hok2
    have hs1 : ∀ c ∈ py_strip x, c.isAlpha = true ∨ c = '_' :=
      fun c hc => hx c (py_strip_subset x c hc)
    have hnodash : '-' ∉ py_strip x := by
      intro hd
      rcases hs1 '-' hd with h | h
      · exact char_alpha_ne_dash '-' h rfl
      · exact absurd h (by decide)
    have hchain := collapse_chain '_' '-' (py_strip x) hnodash
    have hends := strip_edges_ends '-' (collapse_runs '_' '-' (py_strip x)) hchain hnil
    have hchars : ∀ c ∈ strip_edges '-' (collapse_runs '_' '-' (py_strip x)),
        c.isAlpha = true ∨ c = '-' := by
      intro c hc
      have hcz := strip_edges_subset '-' _ c hc
      rcases collapse_chars '_' '-' (py_strip x) c hcz with ⟨hmem, hnec⟩ | rfl
      · rcases hs1 c hmem with h | h
        · exact Or.inl h
        · exact absurd h hnec
      · exact Or.inr rfl
    rw [hy] at hnil hends hchars
    exact transform_name_fixed y hnil hchars hends.1 hends.2

/-- Claim C8, witness: `__foo_bar__` normalizes to `foo-bar`, which
normalizes to itself. -/
theorem C8_witness :
    (("__foo_bar__".data.all fun c => c.isAlpha || c == '_') = true) ∧
      transform_name "__foo_bar__".data '_' '-' = .ok "foo-bar".data ∧
      transform_name "foo-bar".data '_' '-' = .ok "foo-bar".data :=
  ⟨by decide, rfl,
    C8_transform_name_idempotent "__foo_bar__".data (by decide) "foo-bar".data rfl⟩
